import Mathlib

/-!
Verification development for `brainbraille_helpers/metrics.py`.

The Python source is shallowly embedded below.  Tokens are `Char`
(the program is applied to letter sequences), NumPy integer arrays
become explicit `ℤ`/`ℕ` values, and Python exceptions become an
explicit error type threaded through `Except`.
-/

/-- Python exceptions that the embedded functions can raise, together with
the two error names used by the specification's taxonomy
(`ConfigurationError`, `InvalidInput`).  The source never raises the latter
two; they are carried here only so that statements can compare the error
actually raised against the error the specification names. -/
inductive PyErr where
  | nameError : PyErr
  | configurationError : PyErr
  | invalidInput : PyErr
deriving DecidableEq

/-- One cell of the `w` array of `min_edit_dist` (third dimension
`option, dist, H, D, S, I`).  `action` is the stored action code
(`-1` at the origin, otherwise `0`/`1`/`2`); the counts are `ℤ`
because the Python code transiently decrements `S` below the copied
value (NumPy signed ints). -/
structure MEDCell where
  action : ℤ
  dist : ℕ
  H : ℤ
  D : ℤ
  S : ℤ
  I : ℤ
deriving DecidableEq

/-- The action-selection conditional of `min_edit_dist` (lines 127-133):
`tie_break[0]` if its cost is `<=` both other costs, else `tie_break[2]`
if its cost is strictly below `tie_break[1]`'s, else `tie_break[1]`. -/
def selectAction (costs : Fin 3 → ℕ) (tb : Fin 3 × Fin 3 × Fin 3) : Fin 3 :=
  if costs tb.1 ≤ costs tb.2.1 ∧ costs tb.1 ≤ costs tb.2.2 then tb.1
  else if costs tb.2.2 < costs tb.2.1 then tb.2.2
  else tb.2.1

/-- The action-selection rule as worded by the specification: let `m` be the
minimum of the three candidate costs; choose `tie_break[0]` whenever its cost
equals `m`; otherwise choose `tie_break[2]` if its cost is strictly less than
`tie_break[1]`'s cost, and `tie_break[1]` otherwise. -/
def selectActionSpec (costs : Fin 3 → ℕ) (tb : Fin 3 × Fin 3 × Fin 3) : Fin 3 :=
  let m := min (costs 0) (min (costs 1) (costs 2))
  if costs tb.1 = m then tb.1
  else if costs tb.2.2 < costs tb.2.1 then tb.2.2
  else tb.2.1

/-- `tie_break` is a permutation of the three action identifiers. -/
def isPermTB (tb : Fin 3 × Fin 3 × Fin 3) : Prop :=
  tb.1 ≠ tb.2.1 ∧ tb.1 ≠ tb.2.2 ∧ tb.2.1 ≠ tb.2.2

instance (tb : Fin 3 × Fin 3 × Fin 3) : Decidable (isPermTB tb) := by
  unfold isPermTB; infer_instance

/-- The candidate costs `[d_cost, s_cost, i_cost]` of `min_edit_dist`
(lines 118-125): vertical (delete) from the cell above, diagonal
(substitute/hit, zero cost on equal tokens) and horizontal (insert)
from the cell to the left. -/
def d_s_i_costs (dw sw iw : ℕ) (labelTok predTok : Char)
    (up diag left : MEDCell) : Fin 3 → ℕ :=
  let s_cost_i : ℕ := if predTok == labelTok then 0 else sw
  ![up.dist + dw, diag.dist + s_cost_i, left.dist + iw]

/-- The body of the double loop of `min_edit_dist` (lines 116-146) for one
cell `(row, col)` with `row, col >= 1`: select the action, copy the source
cell (with the hit adjustment `H += 1; S -= 1` when the diagonal action has
zero substitution cost), then overwrite the action and distance and bump the
count column of the chosen action. -/
def step (dw sw iw : ℕ) (tb : Fin 3 × Fin 3 × Fin 3)
    (labelTok predTok : Char) (up diag left : MEDCell) : MEDCell :=
  let s_cost_i : ℕ := if predTok == labelTok then 0 else sw
  let costs := d_s_i_costs dw sw iw labelTok predTok up diag left
  let action := selectAction costs tb
  let base : MEDCell :=
    if action = 0 then up
    else if action = 1 then
      (if s_cost_i = 0 then { diag with H := diag.H + 1, S := diag.S - 1 }
       else diag)
    else left
  let base := { base with action := (action.val : ℤ), dist := costs action }
  if action = 0 then { base with D := base.D + 1 }
  else if action = 1 then { base with S := base.S + 1 }
  else { base with I := base.I + 1 }

/-- Row 0 of the `w` array (lines 104-113): cell `(0,0)` is the sentinel with
action `-1`; cell `(0,c)` has action `2` (insert), distance `c * insert_weight`
and insert count `c`. -/
def rowZeroCell (iw : ℕ) : ℕ → MEDCell
  | 0 => ⟨-1, 0, 0, 0, 0, 0⟩
  | Nat.succ c => ⟨2, (c + 1) * iw, 0, 0, 0, (c : ℤ) + 1⟩

/-- Row `r+1` of the `w` array, built from row `r` (`prevRow`): column 0 is
the pure-deletion boundary cell, and column `c+1` applies `step` to the
cells above, diagonally above and to the left. -/
def nextRowCell (pred : List Char) (dw sw iw : ℕ) (tb : Fin 3 × Fin 3 × Fin 3)
    (labelTok : Char) (prevRow : ℕ → MEDCell) (r : ℕ) : ℕ → MEDCell
  | 0 => ⟨0, (r + 1) * dw, 0, (r : ℤ) + 1, 0, 0⟩
  | Nat.succ c =>
      step dw sw iw tb labelTok (pred.getD c default)
        (prevRow (c + 1)) (prevRow c)
        (nextRowCell pred dw sw iw tb labelTok prevRow r c)

/-- Row `r` of the `w` array of `min_edit_dist`, as a function of the column
index.  The row-major loop of the source mutates nothing after a cell is
written, so the array is the fixpoint of this recursion. -/
def wRow (label pred : List Char) (dw sw iw : ℕ)
    (tb : Fin 3 × Fin 3 × Fin 3) : ℕ → ℕ → MEDCell
  | 0 => rowZeroCell iw
  | Nat.succ r =>
      nextRowCell pred dw sw iw tb (label.getD r default)
        (wRow label pred dw sw iw tb r) r

/-- The `w` array of `min_edit_dist`: cell at `(r, c)`. -/
def w (label pred : List Char) (dw sw iw : ℕ)
    (tb : Fin 3 × Fin 3 × Fin 3) (r c : ℕ) : MEDCell :=
  wRow label pred dw sw iw tb r c

/-- Increment entry `(i, j)` of a confusion matrix represented as a
function. -/
def bumpCM (cm : ℕ → ℕ → ℕ) (i j : ℕ) : ℕ → ℕ → ℕ :=
  fun a b => if a = i ∧ b = j then cm a b + 1 else cm a b

/-- The backward pass of `min_edit_dist` (lines 154-169): starting from a
cell, while both coordinates are positive, inspect the recorded action,
attribute one confusion-matrix entry (`U` is the reserved last index used
for the deletion column and the insertion row, `-1` in the source) and move
to the source cell.  The loop stops as soon as either coordinate reaches 0
(the `and` in the `while` condition).  `fuel` bounds the recursion; every
iteration strictly decreases `r + c`, so fuel `r + c` is never exhausted. -/
def backtrace (wf : ℕ → ℕ → MEDCell) (label pred : List Char)
    (tIdx : Char → ℕ) (U : ℕ) :
    ℕ → ℕ → ℕ → (ℕ → ℕ → ℕ) → (ℕ → ℕ → ℕ)
  | 0, _, _, cm => cm
  | Nat.succ fuel, r, c, cm =>
      if 0 < r ∧ 0 < c then
        let action := (wf r c).action
        if action = 1 then
          backtrace wf label pred tIdx U fuel (r - 1) (c - 1)
            (bumpCM cm (tIdx (label.getD (r - 1) default))
              (tIdx (pred.getD (c - 1) default)))
        else if action = 0 then
          backtrace wf label pred tIdx U fuel (r - 1) c
            (bumpCM cm (tIdx (label.getD (r - 1) default)) U)
        else
          backtrace wf label pred tIdx U fuel r (c - 1)
            (bumpCM cm U (tIdx (pred.getD (c - 1) default)))
      else cm

/-- ASCII lower-casing of one character, as `str.lower` acts on the ASCII
style names used by `min_edit_dist`. -/
def charLower (c : Char) : Char :=
  if 'A' ≤ c ∧ c ≤ 'Z' then Char.ofNat (c.toNat + 32) else c

/-- The style handling of `min_edit_dist` (lines 84-91): a string style is
lowercased; `"htk"` and `"nist"` override both the weights and the
tie-break; any other string (and a non-string style, modelled as `none`)
leaves the caller's weights and tie-break untouched.  No error is ever
raised here. -/
def resolve_style (dw sw iw : ℕ) (tb : Fin 3 × Fin 3 × Fin 3)
    (style : Option String) : ℕ × ℕ × ℕ × (Fin 3 × Fin 3 × Fin 3) :=
  match style with
  | none => (dw, sw, iw, tb)
  | some s =>
      let t := s.data.map charLower
      if t = ['h', 't', 'k'] then
        (7, 10, 7, ((1 : Fin 3), (0 : Fin 3), (2 : Fin 3)))
      else if t = ['n', 'i', 's', 't'] then
        (3, 4, 3, ((0 : Fin 3), (1 : Fin 3), (2 : Fin 3)))
      else (dw, sw, iw, tb)

/-- The sorted distinct tokens of `label + pred`
(`sorted(np.unique(label + pred))`, line 148). -/
def uniqueTokens (label pred : List Char) : List Char :=
  ((label ++ pred).dedup).insertionSort (· ≤ ·)

/-- The result bundle of `min_edit_dist`: `w[row][col][1:]` (distance and
the four counts), the confusion matrix and the ordered token list. -/
structure MEDResult where
  dist : ℕ
  H : ℤ
  D : ℤ
  S : ℤ
  I : ℤ
  confusion_mat : ℕ → ℕ → ℕ
  unique_tokens : List Char

/-- `min_edit_dist` (lines 76-173).  When either sequence is empty the
double loop never executes, so at line 154 the loop variables `row`/`col`
were never bound and Python raises `NameError`; this is modelled by the two
error branches. -/
def min_edit_dist (label pred : List Char) (delete_weight : ℕ := 7)
    (substitute_weight : ℕ := 10) (insert_weight : ℕ := 7)
    (tie_break : Fin 3 × Fin 3 × Fin 3 := ((1 : Fin 3), (0 : Fin 3), (2 : Fin 3)))
    (style : Option String := some "htk") : Except PyErr MEDResult :=
  match resolve_style delete_weight substitute_weight insert_weight
      tie_break style with
  | (dw, sw, iw, tb) =>
    match label, pred with
    | [], _ => .error .nameError
    | _ :: _, [] => .error .nameError
    | _ :: _, _ :: _ =>
      let N := label.length
      let M := pred.length
      let toks := uniqueTokens label pred
      let U := toks.length
      let tIdx := fun t => toks.indexOf t
      let cell := w label pred dw sw iw tb N M
      let confusion := backtrace (w label pred dw sw iw tb) label pred
        tIdx U (N + M) N M (fun _ _ => 0)
      .ok ⟨cell.dist, cell.H, cell.D, cell.S, cell.I, confusion, toks⟩

/-- Projection of the four counts `(H, D, S, I)` out of a `min_edit_dist`
result, `none` on error.  Used to state claims without writing out the
whole result bundle (whose confusion matrix is a function). -/
def medCounts : Except PyErr MEDResult → Option (ℤ × ℤ × ℤ × ℤ)
  | .ok r => some (r.H, r.D, r.S, r.I)
  | .error _ => none

/-- Projection of the hit count, `none` on error. -/
def medHit (e : Except PyErr MEDResult) : Option ℤ :=
  (medCounts e).map fun q => q.1

/-- Sum of all entries of the `(U+1) x (U+1)` confusion matrix of a
`min_edit_dist` result (`0` on error). -/
def cmTotal : Except PyErr MEDResult → ℕ
  | .error _ => 0
  | .ok r =>
      ∑ i ∈ Finset.range (r.unique_tokens.length + 1),
        ∑ j ∈ Finset.range (r.unique_tokens.length + 1), r.confusion_mat i j

/-- Sum `H + D + S + I` of a `min_edit_dist` result (`0` on error). -/
def countsTotal : Except PyErr MEDResult → ℤ
  | .error _ => 0
  | .ok r => r.H + r.D + r.S + r.I

/-- `true` exactly when an alignment result was produced. -/
def isOk : Except PyErr MEDResult → Bool
  | .ok _ => true
  | .error _ => false

/-- `tok_acc` (lines 176-180): word accuracy
`(n - delete - substitute - insert) / n` from a default-parameter
(HTK-style) alignment. -/
def tok_acc (label pred : List Char) : Except PyErr ℚ :=
  match min_edit_dist label pred with
  | .error e => .error e
  | .ok res =>
      let n : ℤ := label.length
      .ok (((n - res.D - res.S - res.I : ℤ) : ℚ) / ((n : ℤ) : ℚ))

/-- `tok_corr` (lines 183-187): word correctness
`(n - delete - substitute) / n` from a default-parameter (HTK-style)
alignment. -/
def tok_corr (label pred : List Char) : Except PyErr ℚ :=
  match min_edit_dist label pred with
  | .error e => .error e
  | .ok res =>
      let n : ℤ := label.length
      .ok (((n - res.D - res.S : ℤ) : ℚ) / ((n : ℤ) : ℚ))

/-- `confusion_matrix_to_y_true_and_y_pred` (lines 11-22): row `i` of the
matrix contributes its index repeated `row-sum` times to `y_true`, and, for
each column `j` in order, the index `j` repeated `cm[i, j]` times to
`y_pred`.  (NumPy's `concatenate` would reject a matrix with no rows or no
columns; theorems about this function therefore assume a non-empty
rectangular matrix, which every confusion matrix of the program is.) -/
def confusion_matrix_to_y_true_and_y_pred (cm : List (List ℕ)) :
    List ℕ × List ℕ :=
  let y_counts_for_each := cm.map List.sum
  let y_true :=
    (y_counts_for_each.enum.map fun p => List.replicate p.2 p.1).flatten
  let y_pred :=
    (cm.map fun row =>
      (row.enum.map fun q => List.replicate q.2 q.1).flatten).flatten
  (y_true, y_pred)

/-- Aggregation of a list of (reference-label, predicted-label) pairs back
into an `R x C` matrix of co-occurrence counts (the inverse operation the
specification calls `buildConfusionMatrix`). -/
def buildConfusionMatrix (R C : ℕ) (pairs : List (ℕ × ℕ)) : List (List ℕ) :=
  (List.range R).map fun i => (List.range C).map fun j => pairs.count (i, j)

/-- Modelled from the spec: `normalize_confusion_matrix` is defined in
`brainbraille_helpers/helpers.py`, which is not among the provided source
files.  Spec section 4.3: row normalization converts raw counts into a
row-stochastic matrix (each row divided by its sum); rows that sum to zero
must not divide by zero — such rows stay zero. -/
def normalize_confusion_matrix (cm : List (List ℚ)) : List (List ℚ) :=
  cm.map fun row =>
    let s := row.sum
    if s = 0 then row else row.map fun x => x / s

/-- One summand of the `HY` sum of `information_transfer_per_selection`
(lines 52-63): `prior * p * log2 p` guarded by `p != 0`, where `p` is one
entry of the row-normalized confusion matrix; a zero entry contributes
`0` and `log2` is not applied to it. -/
def HY_term (log2 : ℚ → ℚ) (priorX p : ℚ) : ℚ :=
  if p ≠ 0 then priorX * p * log2 p else 0

/-- One summand of the `HYX` accumulation of
`information_transfer_per_selection` (lines 64-72): `s * log2 s` guarded by
`s != 0`; a zero accumulated probability contributes `0` and `log2` is not
applied to it. -/
def HYX_term (log2 : ℚ → ℚ) (s : ℚ) : ℚ :=
  if s ≠ 0 then s * log2 s else 0

/-- `information_transfer_per_selection` (lines 41-73).  The binary
logarithm is a parameter `log2` (the real-valued `np.log2` is outside a
rational embedding; every property proved below holds for an arbitrary
`log2`, which is exactly what makes the zero guards meaningful).  The prior
dictionary is a key-value list; `X`/`Y` default to the sorted prior keys.
Out-of-range accesses (`getD`) stand for indices that are in range whenever
the prior and the confusion matrix cover the same categories, as in the
source's usage. -/
def information_transfer_per_selection (log2 : ℚ → ℚ)
    (prior : List (Char × ℚ)) (cm : List (List ℚ))
    (Xopt Yopt : Option (List Char) := none) : ℚ :=
  let normalized_cm := normalize_confusion_matrix cm
  let select_options := ((prior.map Prod.fst).dedup).insertionSort (· ≤ ·)
  let X := Xopt.getD select_options
  let Y := Yopt.getD select_options
  let letters_to_ind := fun letter => select_options.indexOf letter
  let M := Y.length
  let N := X.length
  let prior_X := X.map fun x => ((prior.lookup x).getD 0)
  let entry := fun i j =>
    (normalized_cm.getD (letters_to_ind (X.getD i default)) []).getD
      (letters_to_ind (Y.getD j default)) 0
  let HY :=
    ((List.range M).map fun j =>
      ((List.range N).map fun i =>
        HY_term log2 (prior_X.getD i 0) (entry i j)).sum).sum
  let HYX :=
    ((List.range M).map fun j =>
      HYX_term log2
        (((List.range N).map fun i =>
          (prior_X.getD i 0) * entry i j).sum)).sum
  HY - HYX

theorem selectAction_eq_spec (costs : Fin 3 → ℕ) (tb : Fin 3 × Fin 3 × Fin 3)
    (h : isPermTB tb) : selectAction costs tb = selectActionSpec costs tb := by
  obtain ⟨a, b, c⟩ := tb
  simp only [isPermTB] at h
  fin_cases a <;> fin_cases b <;> fin_cases c <;>
    simp_all [selectAction, selectActionSpec] <;>
    split_ifs <;> first | rfl | omega

theorem step_action (dw sw iw : ℕ) (tb : Fin 3 × Fin 3 × Fin 3)
    (labelTok predTok : Char) (up diag left : MEDCell) :
    (step dw sw iw tb labelTok predTok up diag left).action =
      ((selectAction (d_s_i_costs dw sw iw labelTok predTok up diag left)
        tb).val : ℤ) := by
  unfold step
  dsimp only
  split_ifs <;> rfl

/-- C1: in the forward pass, at every cell `(r+1, c+1)` of the DP grid, the
recorded action is exactly the specification's selection rule applied to
the candidate costs `d_cost, s_cost, i_cost` of that cell: `tie_break[0]`'s
action whenever its cost equals the minimum `m`, otherwise `tie_break[2]`'s
action when its cost is strictly below `tie_break[1]`'s, and `tie_break[1]`'s
action otherwise — for every pair of sequences, every triple of
(non-negative) weights and every permutation `tie_break`. -/
theorem c1_forward_action_follows_spec (label pred : List Char)
    (dw sw iw : ℕ) (tb : Fin 3 × Fin 3 × Fin 3) (hperm : isPermTB tb)
    (r c : ℕ) :
    (w label pred dw sw iw tb (r + 1) (c + 1)).action =
      ((selectActionSpec
        (d_s_i_costs dw sw iw (label.getD r default) (pred.getD c default)
          (w label pred dw sw iw tb r (c + 1))
          (w label pred dw sw iw tb r c)
          (w label pred dw sw iw tb (r + 1) c)) tb).val : ℤ) := by
  have hstep : w label pred dw sw iw tb (r + 1) (c + 1) =
      step dw sw iw tb (label.getD r default) (pred.getD c default)
        (w label pred dw sw iw tb r (c + 1))
        (w label pred dw sw iw tb r c)
        (w label pred dw sw iw tb (r + 1) c) := rfl
  rw [hstep, step_action, selectAction_eq_spec _ _ hperm]

theorem c1_forward_action_follows_spec_witness :
    isPermTB ((1 : Fin 3), (0 : Fin 3), (2 : Fin 3)) ∧
    (w ['a'] ['b'] 7 10 7 ((1 : Fin 3), (0 : Fin 3), (2 : Fin 3)) 1 1).action =
      ((selectActionSpec
        (d_s_i_costs 7 10 7 (['a'].getD 0 default) (['b'].getD 0 default)
          (w ['a'] ['b'] 7 10 7 ((1 : Fin 3), (0 : Fin 3), (2 : Fin 3)) 0 1)
          (w ['a'] ['b'] 7 10 7 ((1 : Fin 3), (0 : Fin 3), (2 : Fin 3)) 0 0)
          (w ['a'] ['b'] 7 10 7 ((1 : Fin 3), (0 : Fin 3), (2 : Fin 3)) 1 0))
        ((1 : Fin 3), (0 : Fin 3), (2 : Fin 3))).val : ℤ) :=
  ⟨by decide,
    c1_forward_action_follows_spec ['a'] ['b'] 7 10 7 _ (by decide) 0 0⟩

theorem step_invariants (dw sw iw : ℕ) (tb : Fin 3 × Fin 3 × Fin 3)
    (labelTok predTok : Char) (up diag left : MEDCell) (R C : ℤ)
    (hup : up.H + up.D + up.S = R ∧ up.H + up.S + up.I = C + 1 ∧
      0 ≤ up.H ∧ 0 ≤ up.D ∧ 0 ≤ up.S ∧ 0 ≤ up.I)
    (hdiag : diag.H + diag.D + diag.S = R ∧ diag.H + diag.S + diag.I = C ∧
      0 ≤ diag.H ∧ 0 ≤ diag.D ∧ 0 ≤ diag.S ∧ 0 ≤ diag.I)
    (hleft : left.H + left.D + left.S = R + 1 ∧ left.H + left.S + left.I = C ∧
      0 ≤ left.H ∧ 0 ≤ left.D ∧ 0 ≤ left.S ∧ 0 ≤ left.I) :
    (step dw sw iw tb labelTok predTok up diag left).H +
      (step dw sw iw tb labelTok predTok up diag left).D +
      (step dw sw iw tb labelTok predTok up diag left).S = R + 1 ∧
    (step dw sw iw tb labelTok predTok up diag left).H +
      (step dw sw iw tb labelTok predTok up diag left).S +
      (step dw sw iw tb labelTok predTok up diag left).I = C + 1 ∧
    0 ≤ (step dw sw iw tb labelTok predTok up diag left).H ∧
    0 ≤ (step dw sw iw tb labelTok predTok up diag left).D ∧
    0 ≤ (step dw sw iw tb labelTok predTok up diag left).S ∧
    0 ≤ (step dw sw iw tb labelTok predTok up diag left).I := by
  unfold step
  dsimp only
  split_ifs <;> simp <;> omega

theorem w_cell_invariants (label pred : List Char) (dw sw iw : ℕ)
    (tb : Fin 3 × Fin 3 × Fin 3) (r : ℕ) : ∀ c : ℕ,
    (w label pred dw sw iw tb r c).H + (w label pred dw sw iw tb r c).D +
      (w label pred dw sw iw tb r c).S = (r : ℤ) ∧
    (w label pred dw sw iw tb r c).H + (w label pred dw sw iw tb r c).S +
      (w label pred dw sw iw tb r c).I = (c : ℤ) ∧
    0 ≤ (w label pred dw sw iw tb r c).H ∧
    0 ≤ (w label pred dw sw iw tb r c).D ∧
    0 ≤ (w label pred dw sw iw tb r c).S ∧
    0 ≤ (w label pred dw sw iw tb r c).I := by
  induction r with
  | zero =>
    intro c
    cases c with
    | zero => simp [w, wRow, rowZeroCell]
    | succ c => simp [w, wRow, rowZeroCell]; positivity
  | succ r ih =>
    intro c
    induction c with
    | zero => simp [w, wRow, nextRowCell]; omega
    | succ c ihc =>
      have hstep : w label pred dw sw iw tb (r + 1) (c + 1) =
          step dw sw iw tb (label.getD r default) (pred.getD c default)
            (w label pred dw sw iw tb r (c + 1))
            (w label pred dw sw iw tb r c)
            (w label pred dw sw iw tb (r + 1) c) := rfl
      rw [hstep]
      have h1 := ih (c + 1)
      have h2 := ih c
      have h := step_invariants dw sw iw tb (label.getD r default)
        (pred.getD c default) (w label pred dw sw iw tb r (c + 1))
        (w label pred dw sw iw tb r c) (w label pred dw sw iw tb (r + 1) c)
        (r : ℤ) (c : ℤ) ⟨h1.1, by omega⟩
        ⟨h2.1, h2.2.1, h2.2.2⟩ ⟨by omega, ihc.2.1, ihc.2.2⟩
      push_cast
      push_cast at h
      omega

/-- C3: whenever `min_edit_dist` produces an alignment result, its counts
satisfy `hit + delete + substitute = N` (reference length) and
`hit + substitute + insert = M` (prediction length), for every weight
triple, every tie-break and every style. -/
theorem c3_count_sums (label pred : List Char) (dw sw iw : ℕ)
    (tb : Fin 3 × Fin 3 × Fin 3) (style : Option String) (h d s i : ℤ)
    (hm : medCounts (min_edit_dist label pred dw sw iw tb style) =
      some (h, d, s, i)) :
    h + d + s = (label.length : ℤ) ∧ h + s + i = (pred.length : ℤ) := by
  rcases hr : resolve_style dw sw iw tb style with ⟨dw', sw', iw', tb'⟩
  unfold min_edit_dist at hm
  rw [hr] at hm
  cases label with
  | nil => simp [medCounts] at hm
  | cons a l =>
    cases pred with
    | nil => simp [medCounts] at hm
    | cons b p =>
      simp only [medCounts, Option.some.injEq, Prod.mk.injEq] at hm
      obtain ⟨hh, hd, hs, hi⟩ := hm
      have hw := w_cell_invariants (a :: l) (b :: p) dw' sw' iw' tb'
        (a :: l).length (b :: p).length
      constructor
      · rw [← hh, ← hd, ← hs]; exact hw.1
      · rw [← hh, ← hs, ← hi]; exact hw.2.1

theorem c3_count_sums_witness :
    medCounts (min_edit_dist ['a'] ['b'] 7 10 7
        ((1 : Fin 3), (0 : Fin 3), (2 : Fin 3)) (some "htk")) =
      some (0, 0, 1, 0) ∧
    ((0 : ℤ) + 0 + 1 = ((['a'].length : ℕ) : ℤ) ∧
      (0 : ℤ) + 1 + 0 = ((['b'].length : ℕ) : ℤ)) :=
  ⟨by decide,
    c3_count_sums ['a'] ['b'] 7 10 7 ((1 : Fin 3), (0 : Fin 3), (2 : Fin 3))
      (some "htk") 0 0 1 0 (by decide)⟩

/-- C4 (code bug, evaluation at the failing input): aligning the empty
reference `[]` against the one-token prediction `['a']` with the default
parameters does not return cost `1 * insert_weight = 7` with insert count 1
as the claim states; the DP loops never execute, the loop variables are
never bound, and the call raises `NameError` — no result is produced. -/
theorem c4_empty_reference_raises :
    min_edit_dist [] ['a'] 7 10 7 ((1 : Fin 3), (0 : Fin 3), (2 : Fin 3))
      (some "htk") = Except.error PyErr.nameError := rfl

/-- C2 (code bug, evaluation at the failing input): for reference `"a"` and
prediction `"bb"` with the default (HTK) parameters, the backward pass
stops as soon as one coordinate reaches 0 (the `and` in the `while`
condition), so the trailing boundary insertion is never attributed: the
confusion-matrix entries total 1 while `hit + delete + substitute + insert
= 2`, contradicting the claimed equality. -/
theorem c2_backtrace_undercounts :
    cmTotal (min_edit_dist ['a'] ['b', 'b'] 7 10 7
        ((1 : Fin 3), (0 : Fin 3), (2 : Fin 3)) (some "htk")) = 1 ∧
    countsTotal (min_edit_dist ['a'] ['b', 'b'] 7 10 7
        ((1 : Fin 3), (0 : Fin 3), (2 : Fin 3)) (some "htk")) = 2 ∧
    (1 : ℕ) ≠ 2 := by
  refine ⟨by decide, by decide, by decide⟩

/-- C6 (counterexample): with a tie-break that is not a permutation
(`(0,0,0)`) and an unrecognized style name (`"bogus"`), `min_edit_dist`
does not fail with a `ConfigurationError` — it produces an alignment
result, contradicting the claim that no result is produced. -/
theorem c6_counterexample :
    isOk (min_edit_dist ['a'] ['b'] 7 10 7
      ((0 : Fin 3), (0 : Fin 3), (0 : Fin 3)) (some "bogus")) = true := by
  decide

/-- C6 (amended): `min_edit_dist` performs no validation of its
configuration: an unrecognized style name (case-insensitively different
from the two presets) is silently ignored, leaving the caller's weights
and tie-break in effect, and an in-range non-permutation tie-break raises
no error either — whenever both sequences are non-empty an alignment
result is produced. -/
theorem c6_amended_no_validation (label pred : List Char) (dw sw iw : ℕ)
    (tb : Fin 3 × Fin 3 × Fin 3) (s : String)
    (hs1 : s.data.map charLower ≠ ['h', 't', 'k'])
    (hs2 : s.data.map charLower ≠ ['n', 'i', 's', 't']) :
    min_edit_dist label pred dw sw iw tb (some s) =
      min_edit_dist label pred dw sw iw tb none ∧
    (label ≠ [] → pred ≠ [] →
      isOk (min_edit_dist label pred dw sw iw tb (some s)) = true) := by
  have hr : resolve_style dw sw iw tb (some s) = (dw, sw, iw, tb) := by
    simp [resolve_style, hs1, hs2]
  have heq : min_edit_dist label pred dw sw iw tb (some s) =
      min_edit_dist label pred dw sw iw tb none := by
    unfold min_edit_dist
    rw [hr]
    rfl
  refine ⟨heq, fun h1 h2 => ?_⟩
  rw [heq]
  unfold min_edit_dist
  cases label with
  | nil => exact absurd rfl h1
  | cons a l =>
    cases pred with
    | nil => exact absurd rfl h2
    | cons b p => rfl

theorem c6_amended_no_validation_witness :
    ("bogus".data.map charLower ≠ ['h', 't', 'k'] ∧
      "bogus".data.map charLower ≠ ['n', 'i', 's', 't']) ∧
    (min_edit_dist ['a'] ['b'] 3 5 2 ((0 : Fin 3), (0 : Fin 3), (0 : Fin 3))
        (some "bogus") =
      min_edit_dist ['a'] ['b'] 3 5 2 ((0 : Fin 3), (0 : Fin 3), (0 : Fin 3))
        none ∧
     (['a'] ≠ ([] : List Char) → ['b'] ≠ ([] : List Char) →
      isOk (min_edit_dist ['a'] ['b'] 3 5 2
        ((0 : Fin 3), (0 : Fin 3), (0 : Fin 3)) (some "bogus")) = true)) :=
  ⟨⟨by decide, by decide⟩,
    c6_amended_no_validation ['a'] ['b'] 3 5 2
      ((0 : Fin 3), (0 : Fin 3), (0 : Fin 3)) "bogus" (by decide) (by decide)⟩

/-- C7 (counterexample): with an empty reference, `tok_acc` and `tok_corr`
do fail — but with the `NameError` propagated out of `min_edit_dist`, not
with the `InvalidInput` error the claim names. -/
theorem c7_counterexample :
    tok_acc [] ['a'] = Except.error PyErr.nameError ∧
    tok_corr [] ['a'] = Except.error PyErr.nameError ∧
    PyErr.nameError ≠ PyErr.invalidInput :=
  ⟨rfl, rfl, by decide⟩

/-- C7 (amended): for every predicted sequence, `tok_acc` and `tok_corr`
with an empty reference (N = 0) produce no numeric result: they fail with
the `NameError` raised inside `min_edit_dist` (whose DP loops never run on
an empty sequence), there being no `InvalidInput` validation in the code. -/
theorem c7_amended_empty_reference_fails (pred : List Char) :
    tok_acc [] pred = Except.error PyErr.nameError ∧
    tok_corr [] pred = Except.error PyErr.nameError :=
  ⟨rfl, rfl⟩

theorem min_edit_dist_ok_counts (label pred : List Char) (dw sw iw : ℕ)
    (tb : Fin 3 × Fin 3 × Fin 3) (style : Option String) (res : MEDResult)
    (he : min_edit_dist label pred dw sw iw tb style = .ok res) :
    res.H + res.D + res.S = (label.length : ℤ) ∧
    res.H + res.S + res.I = (pred.length : ℤ) ∧
    0 ≤ res.H ∧ 0 ≤ res.D ∧ 0 ≤ res.S ∧ 0 ≤ res.I ∧
    label ≠ [] ∧ pred ≠ [] := by
  rcases hr : resolve_style dw sw iw tb style with ⟨dw', sw', iw', tb'⟩
  unfold min_edit_dist at he
  rw [hr] at he
  cases label with
  | nil => simp at he
  | cons a l =>
    cases pred with
    | nil => simp at he
    | cons b p =>
      simp only [Except.ok.injEq] at he
      subst he
      have hw := w_cell_invariants (a :: l) (b :: p) dw' sw' iw' tb'
        (a :: l).length (b :: p).length
      exact ⟨hw.1, hw.2.1, hw.2.2.1, hw.2.2.2.1, hw.2.2.2.2.1,
        hw.2.2.2.2.2, by simp, by simp⟩

/-- C8: whenever an alignment result exists at all (so the counts come from
a valid alignment with N > 0 and all counts non-negative), word accuracy is
at most word correctness. -/
theorem c8_accuracy_le_correctness (label pred : List Char) (a c : ℚ)
    (ha : tok_acc label pred = .ok a) (hc : tok_corr label pred = .ok c) :
    a ≤ c := by
  unfold tok_acc at ha
  unfold tok_corr at hc
  cases he : min_edit_dist label pred 7 10 7
      ((1 : Fin 3), (0 : Fin 3), (2 : Fin 3)) (some "htk") with
  | error e => rw [he] at ha; simp at ha
  | ok res =>
    rw [he] at ha hc
    simp only [Except.ok.injEq] at ha hc
    obtain ⟨h1, h2, hH, hD, hS, hI, hlab, _⟩ :=
      min_edit_dist_ok_counts label pred 7 10 7 _ (some "htk") res he
    have hn : (0 : ℤ) < (label.length : ℤ) := by
      cases label with
      | nil => exact absurd rfl hlab
      | cons x xs => simp
    rw [← ha, ← hc]
    have hq : (0 : ℚ) < (((label.length : ℤ) : ℤ) : ℚ) := by exact_mod_cast hn
    apply (div_le_div_iff_of_pos_right hq).mpr
    exact_mod_cast (by omega :
      ((label.length : ℤ) - res.D - res.S - res.I) ≤
        ((label.length : ℤ) - res.D - res.S))

theorem tok_acc_formula (label pred : List Char) (h d s i : ℤ)
    (hm : medCounts (min_edit_dist label pred 7 10 7
      ((1 : Fin 3), (0 : Fin 3), (2 : Fin 3)) (some "htk")) =
        some (h, d, s, i)) :
    tok_acc label pred =
      .ok ((((label.length : ℤ) - d - s - i : ℤ) : ℚ) /
        (((label.length : ℤ)) : ℚ)) := by
  unfold tok_acc
  cases he : min_edit_dist label pred 7 10 7
      ((1 : Fin 3), (0 : Fin 3), (2 : Fin 3)) (some "htk") with
  | error e => rw [he] at hm; simp [medCounts] at hm
  | ok res =>
    rw [he] at hm
    simp only [medCounts, Option.some.injEq, Prod.mk.injEq] at hm
    obtain ⟨hh, hd, hs, hi⟩ := hm
    simp [← hd, ← hs, ← hi]

theorem tok_corr_formula (label pred : List Char) (h d s i : ℤ)
    (hm : medCounts (min_edit_dist label pred 7 10 7
      ((1 : Fin 3), (0 : Fin 3), (2 : Fin 3)) (some "htk")) =
        some (h, d, s, i)) :
    tok_corr label pred =
      .ok ((((label.length : ℤ) - d - s : ℤ) : ℚ) /
        (((label.length : ℤ)) : ℚ)) := by
  unfold tok_corr
  cases he : min_edit_dist label pred 7 10 7
      ((1 : Fin 3), (0 : Fin 3), (2 : Fin 3)) (some "htk") with
  | error e => rw [he] at hm; simp [medCounts] at hm
  | ok res =>
    rw [he] at hm
    simp only [medCounts, Option.some.injEq, Prod.mk.injEq] at hm
    obtain ⟨hh, hd, hs, hi⟩ := hm
    simp [← hd, ← hs]

theorem c8_accuracy_le_correctness_witness :
    tok_acc ['a'] ['a'] = Except.ok 1 ∧ tok_corr ['a'] ['a'] = Except.ok 1 ∧
    (1 : ℚ) ≤ 1 := by
  have hm : medCounts (min_edit_dist ['a'] ['a'] 7 10 7
      ((1 : Fin 3), (0 : Fin 3), (2 : Fin 3)) (some "htk")) =
        some (1, 0, 0, 0) := by decide
  have h1 := tok_acc_formula ['a'] ['a'] 1 0 0 0 hm
  have h2 := tok_corr_formula ['a'] ['a'] 1 0 0 0 hm
  norm_num at h1 h2
  exact ⟨h1, h2, c8_accuracy_le_correctness ['a'] ['a'] 1 1 h1 h2⟩

/-- C5 (counterexample): for the empty sequence `S = []`, `align(S, S)` does
not return a zero-cost result with `hit = len(S) = 0` — the call raises
`NameError` (empty sequences crash the DP, see C4), so the claim fails at
`S = []`. -/
theorem c5_counterexample :
    min_edit_dist [] [] 7 10 7 ((1 : Fin 3), (0 : Fin 3), (2 : Fin 3))
      none = Except.error PyErr.nameError := rfl

theorem selectAction_of_unique_min (costs : Fin 3 → ℕ)
    (tb : Fin 3 × Fin 3 × Fin 3) (hperm : isPermTB tb)
    (h0 : costs 1 < costs 0) (h2 : costs 1 < costs 2) :
    selectAction costs tb = 1 := by
  obtain ⟨a, b, c⟩ := tb
  simp only [isPermTB] at hperm
  fin_cases a <;> fin_cases b <;> fin_cases c <;>
    simp_all [selectAction] <;> split_ifs <;> first | rfl | omega

theorem d_s_i_costs_one (dw sw iw : ℕ) (labelTok predTok : Char)
    (up diag left : MEDCell) :
    d_s_i_costs dw sw iw labelTok predTok up diag left 1 =
      diag.dist + (if predTok == labelTok then 0 else sw) := by
  simp [d_s_i_costs]

theorem step_hit (dw sw iw : ℕ) (tb : Fin 3 × Fin 3 × Fin 3)
    (labelTok predTok : Char) (up diag left : MEDCell)
    (htok : (predTok == labelTok) = true)
    (hsel : selectAction
      (d_s_i_costs dw sw iw labelTok predTok up diag left) tb = 1) :
    step dw sw iw tb labelTok predTok up diag left =
      ⟨1, diag.dist, diag.H + 1, diag.D, diag.S - 1 + 1, diag.I⟩ := by
  unfold step
  dsimp only
  rw [hsel, d_s_i_costs_one, htok]
  simp [htok]

theorem w_diag_self (S : List Char) (dw sw iw : ℕ)
    (tb : Fin 3 × Fin 3 × Fin 3) (hperm : isPermTB tb)
    (hdw : 0 < dw) (hiw : 0 < iw) : ∀ r : ℕ,
    (w S S dw sw iw tb r r).dist = 0 ∧
    (w S S dw sw iw tb r r).H = (r : ℤ) ∧
    (w S S dw sw iw tb r r).D = 0 ∧
    (w S S dw sw iw tb r r).S = 0 ∧
    (w S S dw sw iw tb r r).I = 0 ∧
    (0 < r → (w S S dw sw iw tb r r).action = 1) := by
  intro r
  induction r with
  | zero => simp [w, wRow, rowZeroCell]
  | succ r ih =>
    have hstep : w S S dw sw iw tb (r + 1) (r + 1) =
        step dw sw iw tb (S.getD r default) (S.getD r default)
          (w S S dw sw iw tb r (r + 1))
          (w S S dw sw iw tb r r)
          (w S S dw sw iw tb (r + 1) r) := rfl
    have htok : ((S.getD r default) == (S.getD r default)) = true := by simp
    have hsel : selectAction
        (d_s_i_costs dw sw iw (S.getD r default) (S.getD r default)
          (w S S dw sw iw tb r (r + 1))
          (w S S dw sw iw tb r r)
          (w S S dw sw iw tb (r + 1) r)) tb = 1 := by
      apply selectAction_of_unique_min _ _ hperm
      · rw [d_s_i_costs_one, htok]
        simp only [d_s_i_costs]
        simp [ih.1]
        omega
      · rw [d_s_i_costs_one, htok]
        simp only [d_s_i_costs]
        simp [ih.1]
        omega
    rw [hstep, step_hit dw sw iw tb _ _ _ _ _ htok hsel]
    refine ⟨ih.1, ?_, ?_, ?_, ?_, fun _ => rfl⟩ <;>
      simp [ih.2.1, ih.2.2.1, ih.2.2.2.1, ih.2.2.2.2.1]

theorem backtrace_self_diag (wf : ℕ → ℕ → MEDCell) (S : List Char)
    (tIdx : Char → ℕ) (U : ℕ)
    (hact : ∀ r : ℕ, 0 < r → (wf r r).action = 1) :
    ∀ (fuel r : ℕ) (cm : ℕ → ℕ → ℕ) (i j : ℕ), i ≠ j → r ≤ fuel →
      backtrace wf S S tIdx U fuel r r cm i j = cm i j := by
  intro fuel
  induction fuel with
  | zero => intro r cm i j hij hr; simp [backtrace]
  | succ fuel ih =>
    intro r cm i j hij hr
    cases r with
    | zero => simp [backtrace]
    | succ r =>
      have hpos : (0 : ℕ) < r + 1 := Nat.succ_pos r
      simp only [backtrace, hact (r + 1) hpos]
      rw [if_pos ⟨hpos, hpos⟩]
      have := ih r (bumpCM cm (tIdx (S.getD (r + 1 - 1) default))
        (tIdx (S.getD (r + 1 - 1) default))) i j hij (by omega)
      simp only [Nat.add_sub_cancel, if_true] at this ⊢
      rw [this]
      unfold bumpCM
      have : ¬(i = tIdx (S.getD r default) ∧ j = tIdx (S.getD r default)) := by
        rintro ⟨hi, hj⟩
        exact hij (hi.trans hj.symm)
      rw [if_neg this]

/-- C5 (amended): for every non-empty sequence `S`, positive delete and
insert weights, any substitute weight, and every valid tie-break
permutation (style left at its non-overriding value), `align(S, S)` returns
cumulative cost 0, `hit = len(S)`, `delete = substitute = insert = 0`, and
a confusion matrix whose off-diagonal entries (including the reserved
insertion row and deletion column) are all zero.  The restriction to
non-empty `S` is forced by the counterexample (empty sequences raise
`NameError`); positive delete/insert weights are needed because with a
zero weight a tie-break preferring delete or insert picks a zero-cost
non-diagonal path, making `hit < len(S)`. -/
theorem c5_amended_self_alignment (S : List Char) (dw sw iw : ℕ)
    (tb : Fin 3 × Fin 3 × Fin 3) (hS : S ≠ []) (hdw : 0 < dw) (hiw : 0 < iw)
    (hperm : isPermTB tb) :
    ∃ res : MEDResult, min_edit_dist S S dw sw iw tb none = .ok res ∧
      res.dist = 0 ∧ res.H = (S.length : ℤ) ∧ res.D = 0 ∧ res.S = 0 ∧
      res.I = 0 ∧ ∀ i j : ℕ, i ≠ j → res.confusion_mat i j = 0 := by
  cases S with
  | nil => exact absurd rfl hS
  | cons a l =>
    have hdiag := w_diag_self (a :: l) dw sw iw tb hperm hdw hiw
    refine ⟨_, rfl, ?_, ?_, ?_, ?_, ?_, ?_⟩
    · exact (hdiag (a :: l).length).1
    · exact (hdiag (a :: l).length).2.1
    · exact (hdiag (a :: l).length).2.2.1
    · exact (hdiag (a :: l).length).2.2.2.1
    · exact (hdiag (a :: l).length).2.2.2.2.1
    · intro i j hij
      exact backtrace_self_diag (w (a :: l) (a :: l) dw sw iw tb) (a :: l)
        (fun t => List.indexOf t (uniqueTokens (a :: l) (a :: l)))
        (uniqueTokens (a :: l) (a :: l)).length
        (fun r hr => (hdiag r).2.2.2.2.2 hr)
        ((a :: l).length + (a :: l).length) (a :: l).length
        (fun _ _ => 0) i j hij (by omega)

theorem c5_amended_self_alignment_witness :
    (['a'] ≠ ([] : List Char) ∧ 0 < 7 ∧ 0 < 7 ∧
      isPermTB ((1 : Fin 3), (0 : Fin 3), (2 : Fin 3))) ∧
    (∃ res : MEDResult, min_edit_dist ['a'] ['a'] 7 10 7
        ((1 : Fin 3), (0 : Fin 3), (2 : Fin 3)) none = .ok res ∧
      res.dist = 0 ∧ res.H = ((['a'].length : ℕ) : ℤ) ∧ res.D = 0 ∧
      res.S = 0 ∧ res.I = 0 ∧
      ∀ i j : ℕ, i ≠ j → res.confusion_mat i j = 0) :=
  ⟨⟨by decide, by decide, by decide, by decide⟩,
    c5_amended_self_alignment ['a'] 7 10 7
      ((1 : Fin 3), (0 : Fin 3), (2 : Fin 3)) (by decide) (by decide)
      (by decide) (by decide)⟩

theorem rowExpand_length (row : List ℕ) : ∀ m : ℕ,
    (((row.enumFrom m).map fun q => List.replicate q.2 q.1).flatten).length =
      row.sum := by
  induction row with
  | nil => intro m; simp
  | cons x xs ih => intro m; simp [List.enumFrom, ih (m + 1)]

theorem count_rowExpand (row : List ℕ) : ∀ m j : ℕ,
    (((row.enumFrom m).map fun q => List.replicate q.2 q.1).flatten).count j =
      if m ≤ j ∧ j < m + row.length then row.getD (j - m) 0 else 0 := by
  induction row with
  | nil => intro m j; simp
  | cons x xs ih =>
    intro m j
    simp only [List.enumFrom, List.map_cons, List.flatten_cons,
      List.count_append, List.count_replicate, ih (m + 1), List.length_cons,
      beq_iff_eq]
    rcases Nat.lt_trichotomy j m with hlt | heq | hgt
    · rw [if_neg (by omega), if_neg (by omega), if_neg (by omega)]
    · subst heq
      rw [if_pos rfl, if_neg (by omega), if_pos (by constructor <;> omega)]
      simp
    · rw [if_neg (by omega)]
      by_cases hin : j < m + (xs.length + 1)
      · rw [if_pos (by omega), if_pos (by omega)]
        have h2 : j - m = (j - (m + 1)) + 1 := by omega
        rw [h2, List.getD_cons_succ]
        omega
      · rw [if_neg (by omega), if_neg (by omega)]

theorem count_zip_replicate (l : List ℕ) : ∀ (k i j : ℕ),
    ((List.replicate l.length k).zip l).count (i, j) =
      if i = k then l.count j else 0 := by
  induction l with
  | nil => intro k i j; simp
  | cons x xs ih =>
    intro k i j
    simp only [List.length_cons, List.replicate_succ, List.zip_cons_cons,
      List.count_cons, ih k, beq_iff_eq, Prod.mk.injEq]
    by_cases hik : i = k
    · subst hik
      by_cases hjx : j = x
      · subst hjx; simp
      · simp [hjx]
    · simp only [if_neg hik, if_neg (fun h : i = k ∧ j = x => hik h.1)]
      rw [if_neg (by rintro ⟨h1, h2⟩; exact hik h1.symm)]

theorem ytyp_zip_count (C : ℕ) : ∀ (cm : List (List ℕ)) (k i j : ℕ),
    (∀ row ∈ cm, row.length = C) →
    (((((cm.map List.sum).enumFrom k).map
        fun p => List.replicate p.2 p.1).flatten).zip
      ((cm.map fun row =>
        ((row.enumFrom 0).map fun q => List.replicate q.2 q.1).flatten).flatten)
      ).count (i, j) =
    if k ≤ i ∧ i < k + cm.length ∧ j < C then
      (cm.getD (i - k) []).getD j 0 else 0 := by
  intro cm
  induction cm with
  | nil => intro k i j hrect; simp
  | cons row rest ih =>
    intro k i j hrect
    have hrow : row.length = C := hrect row (List.mem_cons_self row rest)
    have hlen : (List.replicate row.sum k).length =
        (((row.enumFrom 0).map
          fun q => List.replicate q.2 q.1).flatten).length := by
      simp [rowExpand_length row 0]
    simp only [List.map_cons, List.enumFrom, List.flatten_cons]
    rw [List.zip_append hlen, List.count_append]
    have h1 : ((List.replicate row.sum k).zip
        (((row.enumFrom 0).map fun q => List.replicate q.2 q.1).flatten)
        ).count (i, j) = if i = k then row.getD j 0 * (if j < C then 1 else 0)
          else 0 := by
      rw [show row.sum =
        (((row.enumFrom 0).map fun q => List.replicate q.2 q.1).flatten).length
        from (rowExpand_length row 0).symm]
      rw [count_zip_replicate]
      by_cases hik : i = k
      · rw [if_pos hik, if_pos hik, count_rowExpand row 0 j]
        by_cases hjC : j < C
        · rw [if_pos (by omega), if_pos hjC]
          simp
        · rw [if_neg (by omega), if_neg hjC]
          simp
      · rw [if_neg hik, if_neg hik]
    rw [h1, ih (k + 1) i j (fun r hr => hrect r (List.mem_cons_of_mem row hr))]
    by_cases hik : i = k
    · subst hik
      have hz : ¬(i + 1 ≤ i ∧ i < i + 1 + rest.length ∧ j < C) := by
        rintro ⟨h, _⟩; omega
      rw [if_pos rfl, if_neg hz, Nat.sub_self, List.getD_cons_zero, add_zero]
      by_cases hjC : j < C
      · rw [if_pos hjC, if_pos ⟨le_refl i, by simp, hjC⟩, mul_one]
      · rw [if_neg hjC, if_neg (by rintro ⟨_, _, h⟩; exact hjC h), mul_zero]
    · rw [if_neg hik]
      by_cases hin : k ≤ i ∧ i < k + (row :: rest).length ∧ j < C
      · obtain ⟨ha, hb, hc⟩ := hin
        simp only [List.length_cons] at hb
        rw [if_pos ⟨by omega, by omega, hc⟩,
          if_pos ⟨ha, by simp only [List.length_cons]; omega, hc⟩]
        have hsub : i - k = (i - (k + 1)) + 1 := by omega
        rw [hsub, List.getD_cons_succ, zero_add]
      · simp only [List.length_cons] at hin
        have hn1 : ¬(k + 1 ≤ i ∧ i < k + 1 + rest.length ∧ j < C) := by
          rintro ⟨x1, x2, x3⟩
          exact hin ⟨by omega, by omega, x3⟩
        have hn2 : ¬(k ≤ i ∧ i < k + (row :: rest).length ∧ j < C) := by
          rintro ⟨x1, x2, x3⟩
          simp only [List.length_cons] at x2
          exact hin ⟨x1, by omega, x3⟩
        rw [if_neg hn1, if_neg hn2]

theorem ytyp_lengths (cm : List (List ℕ)) : ∀ k : ℕ,
    ((((cm.map List.sum).enumFrom k).map
      fun p => List.replicate p.2 p.1).flatten).length =
    ((cm.map fun row =>
      ((row.enumFrom 0).map fun q => List.replicate q.2 q.1).flatten).flatten
      ).length := by
  induction cm with
  | nil => intro k; simp
  | cons row rest ih =>
    intro k
    simp only [List.map_cons, List.enumFrom, List.flatten_cons,
      List.length_append, List.length_replicate, rowExpand_length row 0,
      ih (k + 1)]

theorem count_eq_of_perm {α : Type} [BEq α] {l1 l2 : List α}
    (h : l1.Perm l2) (a : α) : l1.count a = l2.count a := by
  induction h with
  | nil => rfl
  | cons x _ ih => simp [List.count_cons, ih]
  | swap x y l => simp [List.count_cons]; omega
  | trans _ _ ih1 ih2 => exact ih1.trans ih2

/-- C9: for every non-empty rectangular confusion matrix of non-negative
integer counts, `confusion_matrix_to_y_true_and_y_pred` returns two
sequences of equal length, and re-aggregating the paired labels — in any
order, i.e. from any permutation of the zipped pairs — into a matrix of the
same shape reproduces the input exactly.  (NumPy's `concatenate` rejects an
empty list of arrays, hence the non-emptiness hypotheses; every confusion
matrix the program builds is `(U+1) x (U+1)` with `U >= 0`.) -/
theorem c9_roundtrip (cm : List (List ℕ)) (C : ℕ) (pairs : List (ℕ × ℕ))
    (_hne : cm ≠ []) (_hC : 0 < C) (hrect : ∀ row ∈ cm, row.length = C)
    (hp : (((confusion_matrix_to_y_true_and_y_pred cm).1).zip
      ((confusion_matrix_to_y_true_and_y_pred cm).2)).Perm pairs) :
    (confusion_matrix_to_y_true_and_y_pred cm).1.length =
      (confusion_matrix_to_y_true_and_y_pred cm).2.length ∧
    buildConfusionMatrix cm.length C pairs = cm := by
  have hdef : confusion_matrix_to_y_true_and_y_pred cm =
    ((((cm.map List.sum).enumFrom 0).map
        fun p => List.replicate p.2 p.1).flatten,
     (cm.map fun row =>
        ((row.enumFrom 0).map fun q => List.replicate q.2 q.1).flatten
        ).flatten) := rfl
  constructor
  · rw [hdef]
    exact ytyp_lengths cm 0
  · apply List.ext_getElem
    · simp [buildConfusionMatrix]
    · intro n h1 h2
      apply List.ext_getElem
      · simp only [buildConfusionMatrix, List.getElem_map, List.getElem_range,
          List.length_map, List.length_range]
        exact (hrect cm[n] (cm.getElem_mem h2)).symm
      · intro jj hj1 hj2
        simp only [buildConfusionMatrix, List.getElem_map,
          List.getElem_range] at hj1 ⊢
        simp only [List.length_map, List.length_range] at hj1
        rw [← count_eq_of_perm hp (n, jj), hdef]
        have hjC : jj < C := hj1
        rw [ytyp_zip_count C cm 0 n jj hrect,
          if_pos ⟨Nat.zero_le n, by omega, hjC⟩, Nat.sub_zero,
          List.getD_eq_getElem cm [] h2,
          List.getD_eq_getElem cm[n] 0 hj2]

theorem c9_roundtrip_witness :
    (([[2]] : List (List ℕ)) ≠ [] ∧ 0 < 1 ∧
      (∀ row ∈ ([[2]] : List (List ℕ)), row.length = 1) ∧
      (((confusion_matrix_to_y_true_and_y_pred [[2]]).1).zip
        ((confusion_matrix_to_y_true_and_y_pred [[2]]).2)).Perm
        [(0, 0), (0, 0)]) ∧
    ((confusion_matrix_to_y_true_and_y_pred [[2]]).1.length =
      (confusion_matrix_to_y_true_and_y_pred [[2]]).2.length ∧
      buildConfusionMatrix ([[2]] : List (List ℕ)).length 1
        [(0, 0), (0, 0)] = [[2]]) :=
  ⟨⟨by decide, by decide, by decide, by decide⟩,
    c9_roundtrip [[2]] 1 [(0, 0), (0, 0)] (by decide) (by decide) (by decide)
      (by decide)⟩

/-- C10: in `information_transfer_per_selection` the binary logarithm is
never applied to a zero argument: a zero entry of the row-normalized
confusion matrix contributes exactly 0 to the `HY` sum, a zero accumulated
probability `s` contributes exactly 0 to the `HYX` accumulation, and —
because of those guards — the whole result is unchanged when the `log2`
function is replaced by any function agreeing with it away from 0, for
every prior, every confusion matrix and every `X`/`Y` choice.  So no
floating-point domain fault can arise from these log terms. -/
theorem c10_log2_never_applied_to_zero :
    (∀ (f : ℚ → ℚ) (p : ℚ), HY_term f p 0 = 0) ∧
    (∀ f : ℚ → ℚ, HYX_term f 0 = 0) ∧
    (∀ (f g : ℚ → ℚ) (prior : List (Char × ℚ)) (cm : List (List ℚ))
      (Xopt Yopt : Option (List Char)),
      (∀ x : ℚ, x ≠ 0 → f x = g x) →
      information_transfer_per_selection f prior cm Xopt Yopt =
        information_transfer_per_selection g prior cm Xopt Yopt) := by
  refine ⟨fun f p => by simp [HY_term], fun f => by simp [HYX_term], ?_⟩
  intro f g prior cm Xopt Yopt hfg
  have hHY : ∀ p q : ℚ, HY_term f p q = HY_term g p q := by
    intro p q
    unfold HY_term
    split_ifs with h
    · rw [hfg q h]
    · rfl
  have hHYX : ∀ s : ℚ, HYX_term f s = HYX_term g s := by
    intro s
    unfold HYX_term
    split_ifs with h
    · rw [hfg s h]
    · rfl
  unfold information_transfer_per_selection
  simp only [hHY, hHYX]

theorem c10_log2_never_applied_to_zero_witness :
    information_transfer_per_selection (fun _ => 0) [('a', 1)] [[1]]
      none none =
    information_transfer_per_selection (fun x => if x = 0 then 37 else 0)
      [('a', 1)] [[1]] none none :=
  c10_log2_never_applied_to_zero.2.2 (fun _ => 0)
    (fun x => if x = 0 then 37 else 0) [('a', 1)] [[1]] none none
    (fun x hx => by simp [hx])
